import Mathlib

/-!
Verification of the hillshader core (`laz2dem`): the tile-bucketing point
ingestion in `read.rs` and the slope/aspect + shading compositor in
`shading.rs`, shallowly embedded over exact real arithmetic.  Where the
sign of a floating-point zero or a NaN decides a branch (the `atan2`
call and the NaN guard in `compute_slope_and_aspect`), the embedding
carries an explicit sign-of-zero bit and NaN flag with IEEE-754
semantics for the operations the code uses.
-/

namespace Hillshader

open Real

/-- Truncation toward zero on ℝ, the rounding used by the Rust `%`
remainder operator on `f64`. -/
noncomputable def rtrunc (x : ℝ) : ℤ :=
  if 0 ≤ x then ⌊x⌋ else ⌈x⌉

/-- The `f64` remainder `x % n` (sign follows the dividend), over ℝ. -/
noncomputable def fmod (x n : ℝ) : ℝ := x - n * rtrunc (x / n)

/-- `normalize_angle` from `shading.rs`. -/
noncomputable def normalize_angle (angle normalizer : ℝ) : ℝ :=
  let a := fmod angle normalizer
  if a < 0 then normalizer + a else a

/-- `difference_between_angles` from `shading.rs`. -/
noncomputable def difference_between_angles (angle1 angle2 normalizer : ℝ) : ℝ :=
  let diff := |normalize_angle angle1 normalizer - normalize_angle angle2 normalizer|
  if diff > normalizer / 2 then normalizer - diff else diff

lemma normalize_angle_eq_fract (x n : ℝ) (hn : 0 < n) :
    normalize_angle x n = n * Int.fract (x / n) := by
  have hn0 : n ≠ 0 := ne_of_gt hn
  have hq : n * (x / n) = x := by field_simp
  unfold normalize_angle fmod rtrunc
  by_cases hx : 0 ≤ x / n
  · rw [if_pos hx]
    have ha : x - n * (⌊x / n⌋ : ℝ) = n * Int.fract (x / n) := by
      rw [Int.fract]; nlinarith [hq]
    rw [ha, if_neg]
    push_neg
    exact mul_nonneg hn.le (Int.fract_nonneg _)
  · rw [if_neg hx]
    push_neg at hx
    by_cases hfq : Int.fract (x / n) = 0
    · have hfl : (⌊x / n⌋ : ℝ) = x / n := by
        have := Int.fract (x / n)
        rw [Int.fract] at hfq
        linarith [hfq]
      have hceil : ⌈x / n⌉ = ⌊x / n⌋ := by
        conv_lhs => rw [← hfl]
        exact Int.ceil_intCast _
      have ha : x - n * (⌈x / n⌉ : ℝ) = 0 := by
        rw [hceil, hfl]; nlinarith [hq]
      rw [ha, if_neg (by norm_num), hfq, mul_zero]
    · have hceil : (⌈x / n⌉ : ℝ) = (⌊x / n⌋ : ℝ) + 1 := by
        have hnegf : Int.fract (-(x / n)) = 1 - Int.fract (x / n) := Int.fract_neg hfq
        have h1 : ⌊-(x / n)⌋ = -⌈x / n⌉ := Int.floor_neg
        rw [Int.fract] at hnegf
        rw [h1] at hnegf
        push_cast at hnegf
        rw [Int.fract] at hnegf
        linarith
      have ha : x - n * (⌈x / n⌉ : ℝ) = n * Int.fract (x / n) - n := by
        rw [hceil, Int.fract]; nlinarith [hq]
      have hfpos : 0 < 1 - Int.fract (x / n) := by
        have := Int.fract_lt_one (x / n)
        linarith
      have haneg : x - n * (⌈x / n⌉ : ℝ) < 0 := by
        rw [ha]; nlinarith
      rw [ha, if_pos (by linarith)]
      ring

lemma normalize_angle_nonneg (x n : ℝ) (hn : 0 < n) : 0 ≤ normalize_angle x n := by
  rw [normalize_angle_eq_fract x n hn]
  exact mul_nonneg hn.le (Int.fract_nonneg _)

lemma normalize_angle_lt (x n : ℝ) (hn : 0 < n) : normalize_angle x n < n := by
  rw [normalize_angle_eq_fract x n hn]
  nlinarith [Int.fract_lt_one (x / n)]

lemma normalize_angle_sub_period (x n : ℝ) (hn : 0 < n) :
    normalize_angle (x - n) n = normalize_angle x n := by
  rw [normalize_angle_eq_fract _ n hn, normalize_angle_eq_fract x n hn]
  have : (x - n) / n = x / n - ((1 : ℤ) : ℝ) := by
    push_cast
    field_simp
  rw [this, Int.fract_sub_int]

/-- A finite `f64` as seen by this code: an exact real value plus the IEEE
sign bit (meaningful when `val = 0`, distinguishing −0 from +0) and a NaN
flag (when set, the other fields are irrelevant).  Rounding and infinities
are outside the model. -/
@[ext]
structure F where
  val : ℝ
  sbit : Bool
  nan : Bool

/-- The effective IEEE sign bit: derived from the value when nonzero,
the stored bit at zero. -/
noncomputable def F.signBit (a : F) : Bool :=
  if a.val < 0 then true else if 0 < a.val then false else a.sbit

/-- Embed a real constant or input datum (zero enters as +0, not NaN). -/
def F.ofReal (x : ℝ) : F := ⟨x, false, false⟩

/-- IEEE negation: flips the sign bit. -/
noncomputable def F.neg (a : F) : F := ⟨-a.val, !a.signBit, a.nan⟩

/-- IEEE addition (round-to-nearest): an exactly-zero sum is −0 only when
both operands carry a negative sign. -/
noncomputable def F.add (a b : F) : F :=
  ⟨a.val + b.val, a.signBit && b.signBit, a.nan || b.nan⟩

/-- IEEE subtraction. -/
noncomputable def F.sub (a b : F) : F := F.add a (F.neg b)

/-- IEEE multiplication: the sign bit is the xor of the operands' signs. -/
noncomputable def F.mul (a b : F) : F :=
  ⟨a.val * b.val, xor a.signBit b.signBit, a.nan || b.nan⟩

/-- Division by the exact positive constant 8 (sign preserved). -/
noncomputable def F.div8 (a : F) : F := ⟨a.val / 8, a.signBit, a.nan⟩

/-- `f64::hypot`: never negative, +0 at the origin, NaN on a NaN argument. -/
noncomputable def F.hypot (a b : F) : F :=
  ⟨Real.sqrt (a.val ^ 2 + b.val ^ 2), false, a.nan || b.nan⟩

/-- `f64::atan`: odd, preserves the sign of zero. -/
noncomputable def F.atan (a : F) : F := ⟨Real.arctan a.val, a.signBit, a.nan⟩

/-- `f64::atan2 y x` with the IEEE special cases on the axes; in
particular `atan2 (±0) x = ±π` for `x` with a negative sign bit and
`±0` for `x` with a positive sign bit. -/
noncomputable def F.atan2 (y x : F) : F :=
  if y.nan || x.nan then ⟨0, false, true⟩
  else if 0 < x.val then ⟨Real.arctan (y.val / x.val), y.signBit, false⟩
  else if x.val < 0 then
    if 0 < y.val then ⟨Real.arctan (y.val / x.val) + π, false, false⟩
    else if y.val < 0 then ⟨Real.arctan (y.val / x.val) - π, true, false⟩
    else ⟨if y.signBit then -π else π, y.signBit, false⟩
  else
    if 0 < y.val then ⟨π / 2, false, false⟩
    else if y.val < 0 then ⟨-(π / 2), true, false⟩
    else if x.signBit then ⟨if y.signBit then -π else π, y.signBit, false⟩
    else ⟨0, y.signBit, false⟩

/-- The IEEE comparison `a < 0.0`: false on NaN and on −0. -/
def F.lt0 (a : F) : Prop := a.nan = false ∧ a.val < 0

noncomputable instance (a : F) : Decidable (F.lt0 a) := by
  unfold F.lt0
  infer_instance

lemma F.signBit_div8 (a : F) : (F.div8 a).signBit = a.signBit := by
  unfold F.div8 F.signBit
  simp only
  have h1 : a.val / 8 < 0 ↔ a.val < 0 := by constructor <;> intro h <;> nlinarith
  have h2 : 0 < a.val / 8 ↔ 0 < a.val := by constructor <;> intro h <;> nlinarith
  simp only [h1, h2]
  split_ifs <;> rfl

lemma F.signBit_mul (a b : F) : (F.mul a b).signBit = xor a.signBit b.signBit := by
  unfold F.mul F.signBit
  simp only
  split_ifs <;> first | rfl | (exfalso; nlinarith)

/-- On `F`, dividing by 8 and then multiplying equals multiplying the other
operand first and dividing afterwards (needed to line the source's
`dz * z_factor` up with the spec's `z_factor * sum / 8`). -/
lemma F.mul_div8_comm (s z : F) : F.mul (F.div8 s) z = F.div8 (F.mul z s) := by
  ext
  · show s.val / 8 * z.val = z.val * s.val / 8
    ring
  · show xor (F.div8 s).signBit z.signBit = (F.mul z s).signBit
    rw [F.signBit_div8, F.signBit_mul, Bool.xor_comm]
  · show (s.nan || z.nan) = (z.nan || s.nan)
    exact Bool.or_comm _ _

/-- `compute_slope_and_aspect` from `shading.rs`, embedded over `F`. -/
noncomputable def compute_slope_and_aspect (elevation : ℕ → F) (z_factor : F)
    (cols x y : ℕ) : F × F :=
  let off := y * cols
  let z1 := elevation (off - cols + x - 1)
  let z2 := elevation (off - cols + x)
  let z3 := elevation (off - cols + x + 1)
  let z4 := elevation (off + x - 1)
  let z6 := elevation (off + x + 1)
  let z7 := elevation (off + cols + x - 1)
  let z8 := elevation (off + cols + x)
  let z9 := elevation (off + cols + x + 1)
  let dz_dx := F.div8 (F.add (F.sub (F.add (F.sub (F.add (F.neg z1) z3)
    (F.mul (F.ofReal 2) z4)) (F.mul (F.ofReal 2) z6)) z7) z9)
  let dz_dy := F.div8 (F.add (F.add (F.add (F.sub (F.sub (F.neg z1)
    (F.mul (F.ofReal 2) z2)) z3) z7) (F.mul (F.ofReal 2) z8)) z9)
  let dz_dx := F.mul dz_dx z_factor
  let dz_dy := F.mul dz_dy z_factor
  let slope_rad := F.atan (F.hypot dz_dx dz_dy)
  let aspect_rad := F.atan2 dz_dy (F.neg dz_dx)
  let aspect_rad :=
    if F.lt0 aspect_rad then F.add aspect_rad (F.ofReal (2 * π)) else aspect_rad
  if aspect_rad.nan || slope_rad.nan then (F.ofReal 0, F.ofReal 0)
  else (slope_rad, aspect_rad)

/-- The spec's slope/aspect kernel, written over the named 3×3 neighborhood:
`dz_dx = z_factor * (-NW + NE - 2·W + 2·E - SW + SE) / 8`,
`dz_dy = z_factor * (-NW - 2·N - NE + SW + 2·S + SE) / 8`,
`slope = atan (hypot dz_dx dz_dy)`, `aspect = atan2 dz_dy (-dz_dx)` plus a
full turn when negative, both forced to 0 when either is NaN. -/
noncomputable def hornFormula (nw nn ne w e sw ss se z_factor : F) : F × F :=
  let dz_dx := F.div8 (F.mul z_factor (F.add (F.sub (F.add (F.sub (F.add (F.neg nw) ne)
    (F.mul (F.ofReal 2) w)) (F.mul (F.ofReal 2) e)) sw) se))
  let dz_dy := F.div8 (F.mul z_factor (F.add (F.add (F.add (F.sub (F.sub (F.neg nw)
    (F.mul (F.ofReal 2) nn)) ne) sw) (F.mul (F.ofReal 2) ss)) se))
  let slope_rad := F.atan (F.hypot dz_dx dz_dy)
  let aspect_rad := F.atan2 dz_dy (F.neg dz_dx)
  let aspect_rad :=
    if F.lt0 aspect_rad then F.add aspect_rad (F.ofReal (2 * π)) else aspect_rad
  if aspect_rad.nan || slope_rad.nan then (F.ofReal 0, F.ofReal 0)
  else (slope_rad, aspect_rad)

/-- C2: on every interior cell, `compute_slope_and_aspect` computes exactly
the spec's Horn finite-difference formula over the cell's 3×3 neighborhood,
with the aspect normalized by a full turn when negative and both outputs
forced to 0 when either is NaN. -/
theorem compute_slope_and_aspect_eq_hornFormula (elevation : ℕ → F) (z_factor : F)
    (rows cols x y : ℕ) (hx1 : 1 ≤ x) (hx2 : x ≤ cols - 2) (hy1 : 1 ≤ y)
    (hy2 : y ≤ rows - 2) :
    compute_slope_and_aspect elevation z_factor cols x y =
      hornFormula (elevation ((y - 1) * cols + (x - 1))) (elevation ((y - 1) * cols + x))
        (elevation ((y - 1) * cols + (x + 1))) (elevation (y * cols + (x - 1)))
        (elevation (y * cols + (x + 1))) (elevation ((y + 1) * cols + (x - 1)))
        (elevation ((y + 1) * cols + x)) (elevation ((y + 1) * cols + (x + 1)))
        z_factor := by
  obtain ⟨a, rfl⟩ : ∃ a, x = a + 1 := ⟨x - 1, by omega⟩
  obtain ⟨b, rfl⟩ : ∃ b, y = b + 1 := ⟨y - 1, by omega⟩
  have h : (b + 1) * cols = b * cols + cols := by ring
  have h2 : (b + 1 + 1) * cols = b * cols + cols + cols := by ring
  have i1 : (b + 1) * cols - cols + (a + 1) - 1 = (b + 1 - 1) * cols + (a + 1 - 1) := by
    simp only [h, Nat.add_sub_cancel]
    all_goals
      generalize b * cols = m
      omega
  have i3 : (b + 1) * cols - cols + (a + 1) + 1 = (b + 1 - 1) * cols + (a + 1 + 1) := by
    simp only [h, Nat.add_sub_cancel]
    all_goals
      generalize b * cols = m
      omega
  have i2 : (b + 1) * cols - cols + (a + 1) = (b + 1 - 1) * cols + (a + 1) := by
    simp only [h, Nat.add_sub_cancel]
  have i4 : (b + 1) * cols + (a + 1) - 1 = (b + 1) * cols + (a + 1 - 1) := by
    simp only [h, Nat.add_sub_cancel]
    all_goals
      generalize b * cols = m
      omega
  have i6 : (b + 1) * cols + (a + 1) + 1 = (b + 1) * cols + (a + 1 + 1) := by
    simp only [h, Nat.add_sub_cancel]
    all_goals
      generalize b * cols = m
      omega
  have i7 : (b + 1) * cols + cols + (a + 1) - 1 = (b + 1 + 1) * cols + (a + 1 - 1) := by
    simp only [h, h2, Nat.add_sub_cancel]
    all_goals
      generalize b * cols = m
      omega
  have i9 : (b + 1) * cols + cols + (a + 1) + 1 = (b + 1 + 1) * cols + (a + 1 + 1) := by
    simp only [h, h2, Nat.add_sub_cancel]
    all_goals
      generalize b * cols = m
      omega
  have i8 : (b + 1) * cols + cols + (a + 1) = (b + 1 + 1) * cols + (a + 1) := by
    simp only [h, h2, Nat.add_sub_cancel]
  simp only [compute_slope_and_aspect, hornFormula]
  rw [i1, i3, i2, i4, i6, i7, i9, i8]
  simp only [F.mul_div8_comm]

/-- Witness for C2 at the interior cell of a concrete 3×3 grid. -/
theorem compute_slope_and_aspect_eq_hornFormula_witness :
    compute_slope_and_aspect (fun _ => F.ofReal 10) (F.ofReal 1) 3 1 1 =
      hornFormula (F.ofReal 10) (F.ofReal 10) (F.ofReal 10) (F.ofReal 10) (F.ofReal 10)
        (F.ofReal 10) (F.ofReal 10) (F.ofReal 10) (F.ofReal 1) :=
  compute_slope_and_aspect_eq_hornFormula (fun _ => F.ofReal 10) (F.ofReal 1) 3 3 1 1
    (by norm_num) (by norm_num) (by norm_num) (by norm_num)

lemma F.signBit_of_val_neg {a : F} (h : a.val < 0) : a.signBit = true := by
  unfold F.signBit
  rw [if_pos h]

lemma F.signBit_of_val_pos {a : F} (h : 0 < a.val) : a.signBit = false := by
  unfold F.signBit
  rw [if_neg (by linarith), if_pos h]

lemma F.signBit_of_val_zero {a : F} (h : a.val = 0) : a.signBit = a.sbit := by
  unfold F.signBit
  rw [if_neg (by simp [h]), if_neg (by simp [h])]

lemma F.signBit_ofReal_of_nonneg {r : ℝ} (hr : 0 ≤ r) : (F.ofReal r).signBit = false := by
  rcases eq_or_lt_of_le hr with h | h
  · rw [F.signBit_of_val_zero (show (F.ofReal r).val = 0 from h.symm)]
    rfl
  · exact F.signBit_of_val_pos h

/-- On a flat grid, the source's `dz/dx` numerator sums to an IEEE +0. -/
lemma flat_sum_x (c : ℝ) :
    F.add (F.sub (F.add (F.sub (F.add (F.neg (F.ofReal c)) (F.ofReal c))
        (F.mul (F.ofReal 2) (F.ofReal c))) (F.mul (F.ofReal 2) (F.ofReal c)))
      (F.ofReal c)) (F.ofReal c) = F.ofReal 0 := by
  ext
  · show -c + c + -(2 * c) + (2 * c) + -c + c = 0
    ring
  · show ((F.sub (F.add (F.sub (F.add (F.neg (F.ofReal c)) (F.ofReal c))
        (F.mul (F.ofReal 2) (F.ofReal c))) (F.mul (F.ofReal 2) (F.ofReal c)))
      (F.ofReal c)).signBit && (F.ofReal c).signBit) = false
    rcases le_or_lt 0 c with hc | hc
    · rw [F.signBit_ofReal_of_nonneg hc, Bool.and_false]
    · rw [F.signBit_of_val_pos
        (show (0 : ℝ) < -c + c + -(2 * c) + (2 * c) + -c by linarith), Bool.false_and]
  · rfl

/-- On a flat grid, the source's `dz/dy` numerator sums to an IEEE +0. -/
lemma flat_sum_y (c : ℝ) :
    F.add (F.add (F.add (F.sub (F.sub (F.neg (F.ofReal c))
        (F.mul (F.ofReal 2) (F.ofReal c))) (F.ofReal c)) (F.ofReal c))
      (F.mul (F.ofReal 2) (F.ofReal c))) (F.ofReal c) = F.ofReal 0 := by
  ext
  · show -c + -(2 * c) + -c + c + 2 * c + c = 0
    ring
  · show ((F.add (F.add (F.sub (F.sub (F.neg (F.ofReal c))
        (F.mul (F.ofReal 2) (F.ofReal c))) (F.ofReal c)) (F.ofReal c))
      (F.mul (F.ofReal 2) (F.ofReal c))).signBit && (F.ofReal c).signBit) = false
    rcases le_or_lt 0 c with hc | hc
    · rw [F.signBit_ofReal_of_nonneg hc, Bool.and_false]
    · rw [F.signBit_of_val_pos
        (show (0 : ℝ) < -c + -(2 * c) + -c + c + 2 * c by linarith), Bool.false_and]
  · rfl

lemma F.div8_ofReal_zero : F.div8 (F.ofReal 0) = F.ofReal 0 := by
  ext
  · show (0 : ℝ) / 8 = 0
    norm_num
  · exact F.signBit_ofReal_of_nonneg le_rfl
  · rfl

lemma F.mul_ofReal_zero_nonneg {r : ℝ} (hr : 0 ≤ r) :
    F.mul (F.ofReal 0) (F.ofReal r) = F.ofReal 0 := by
  ext
  · show (0 : ℝ) * r = 0
    ring
  · show xor (F.ofReal 0).signBit (F.ofReal r).signBit = false
    rw [F.signBit_ofReal_of_nonneg le_rfl, F.signBit_ofReal_of_nonneg hr]
    rfl
  · rfl

/-- On a constant grid with nonnegative z-factor, the code returns
slope +0 and aspect π: both derivatives are +0, so the aspect is
`atan2 (+0) (−0) = π` by the IEEE special case, and the NaN guard
never fires. -/
lemma flat_constant_grid_eval (c r : ℝ) (hr : 0 ≤ r) (cols x y : ℕ) :
    compute_slope_and_aspect (fun _ => F.ofReal c) (F.ofReal r) cols x y =
      (F.ofReal 0, F.mk π false false) := by
  have hslope : F.atan (F.hypot (F.ofReal 0) (F.ofReal 0)) = F.ofReal 0 := by
    ext
    · show Real.arctan (Real.sqrt ((0 : ℝ) ^ 2 + 0 ^ 2)) = 0
      norm_num [Real.arctan_zero]
    · show F.signBit (F.hypot (F.ofReal 0) (F.ofReal 0)) = false
      rw [F.signBit_of_val_zero (show (F.hypot (F.ofReal 0) (F.ofReal 0)).val = 0 by
        show Real.sqrt ((0 : ℝ) ^ 2 + 0 ^ 2) = 0
        norm_num)]
      rfl
    · rfl
  have hnegz : F.neg (F.ofReal 0) = F.mk 0 true false := by
    ext
    · show -(0 : ℝ) = 0
      norm_num
    · show (!(F.ofReal 0).signBit) = true
      rw [F.signBit_ofReal_of_nonneg le_rfl]
      rfl
    · rfl
  have haspect : F.atan2 (F.ofReal 0) (F.mk 0 true false) = F.mk π false false := by
    unfold F.atan2
    rw [if_neg (by norm_num [F.ofReal]), if_neg (by norm_num), if_neg (by norm_num),
      if_neg (by norm_num [F.ofReal]), if_neg (by norm_num [F.ofReal]),
      if_pos (by rw [F.signBit_of_val_zero (show (F.mk 0 true false).val = 0 from rfl)])]
    rw [F.signBit_ofReal_of_nonneg le_rfl]
    norm_num
  have hlt : ¬ F.lt0 (F.mk π false false) := by
    rintro ⟨-, h⟩
    exact lt_asymm Real.pi_pos h
  simp only [compute_slope_and_aspect]
  rw [flat_sum_x c, flat_sum_y c]
  simp only [F.div8_ofReal_zero, F.mul_ofReal_zero_nonneg hr]
  rw [hslope, hnegz, haspect, if_neg hlt, if_neg (by norm_num [F.ofReal])]

/-- C3 counterexample: on the all-10 3×3 grid with z-factor 1 the code
returns slope 0 but aspect π, not 0, and the aspect is a normal non-NaN
value, so the claimed NaN-guard path is not taken. -/
theorem flat10_aspect_pi_counterexample :
    (compute_slope_and_aspect (fun _ => F.ofReal 10) (F.ofReal 1) 3 1 1).1 = F.ofReal 0 ∧
      (compute_slope_and_aspect (fun _ => F.ofReal 10) (F.ofReal 1) 3 1 1).2.val = π ∧
      (compute_slope_and_aspect (fun _ => F.ofReal 10) (F.ofReal 1) 3 1 1).2.val ≠ 0 ∧
      (compute_slope_and_aspect (fun _ => F.ofReal 10) (F.ofReal 1) 3 1 1).2.nan = false := by
  rw [flat_constant_grid_eval 10 1 (by norm_num) 3 1 1]
  exact ⟨rfl, rfl, Real.pi_ne_zero, rfl⟩

/-- C3 amended: on every constant elevation grid with nonnegative z-factor,
every cell yields slope 0 (a true +0) and aspect π, produced by the IEEE
rule `atan2 (+0) (−0) = π`; nothing is NaN, so the NaN guard does not fire. -/
theorem flat_grid_slope_zero_aspect_pi (c r : ℝ) (hr : 0 ≤ r) (cols x y : ℕ) :
    compute_slope_and_aspect (fun _ => F.ofReal c) (F.ofReal r) cols x y =
      (F.ofReal 0, F.mk π false false) :=
  flat_constant_grid_eval c r hr cols x y

/-- Witness for the amended C3 at the spec's concrete scenario. -/
theorem flat_grid_slope_zero_aspect_pi_witness :
    compute_slope_and_aspect (fun _ => F.ofReal 10) (F.ofReal 1) 3 1 1 =
      (F.ofReal 0, F.mk π false false) :=
  flat_grid_slope_zero_aspect_pi 10 1 (by norm_num) 3 1 1

lemma F.atan2_val_bounds (y x : F) :
    -π ≤ (F.atan2 y x).val ∧ (F.atan2 y x).val ≤ π := by
  have hπ := Real.pi_pos
  unfold F.atan2
  split_ifs <;> dsimp only <;> constructor <;>
    first
      | linarith
      | linarith [Real.arctan_lt_pi_div_two (y.val / x.val),
          Real.neg_pi_div_two_lt_arctan (y.val / x.val)]
      | linarith [Real.arctan_zero,
          Real.arctan_strictMono (show y.val / x.val < 0 from
            div_neg_of_pos_of_neg (by assumption) (by assumption))]
      | linarith [Real.arctan_zero,
          Real.arctan_strictMono (show (0 : ℝ) < y.val / x.val from
            div_pos_of_neg_of_neg (by assumption) (by assumption))]

/-- The tail of `compute_slope_and_aspect` (negative-aspect normalization
followed by the NaN guard) maps any atan2 output into [0, 2π). -/
lemma aspect_tail_bounds (yv xv slope : F) :
    0 ≤ (if (if F.lt0 (F.atan2 yv xv) then F.add (F.atan2 yv xv) (F.ofReal (2 * π))
          else F.atan2 yv xv).nan || slope.nan then (F.ofReal 0, F.ofReal 0)
        else (slope, if F.lt0 (F.atan2 yv xv) then F.add (F.atan2 yv xv) (F.ofReal (2 * π))
          else F.atan2 yv xv)).2.val ∧
      (if (if F.lt0 (F.atan2 yv xv) then F.add (F.atan2 yv xv) (F.ofReal (2 * π))
          else F.atan2 yv xv).nan || slope.nan then (F.ofReal 0, F.ofReal 0)
        else (slope, if F.lt0 (F.atan2 yv xv) then F.add (F.atan2 yv xv) (F.ofReal (2 * π))
          else F.atan2 yv xv)).2.val < 2 * π := by
  have hπ := Real.pi_pos
  obtain ⟨hl, hu⟩ := F.atan2_val_bounds yv xv
  set A := F.atan2 yv xv with hA
  by_cases hlt : F.lt0 A
  · rw [if_pos hlt]
    by_cases hnan : ((F.add A (F.ofReal (2 * π))).nan || slope.nan) = true
    · rw [if_pos hnan]
      constructor <;> dsimp only [F.ofReal] <;> linarith
    · rw [if_neg hnan]
      have hv : (F.add A (F.ofReal (2 * π))).val = A.val + 2 * π := rfl
      obtain ⟨-, hneg⟩ := hlt
      constructor <;> dsimp only <;> rw [hv] <;> linarith
  · rw [if_neg hlt]
    by_cases hnan : (A.nan || slope.nan) = true
    · rw [if_pos hnan]
      constructor <;> dsimp only [F.ofReal] <;> linarith
    · rw [if_neg hnan]
      have hAnan : A.nan = false := by
        rcases Bool.or_eq_false_iff.mp (Bool.not_eq_true _ |>.mp hnan) with ⟨h, -⟩
        exact h
      have hge : ¬ A.val < 0 := fun h => hlt ⟨hAnan, h⟩
      push_neg at hge
      constructor <;> dsimp only <;> linarith

/-- C6: on every interior cell, the aspect returned by
`compute_slope_and_aspect` lies in [0, 2π). -/
theorem aspect_in_unit_turn (elevation : ℕ → F) (z_factor : F) (rows cols x y : ℕ)
    (hx1 : 1 ≤ x) (hx2 : x ≤ cols - 2) (hy1 : 1 ≤ y) (hy2 : y ≤ rows - 2) :
    0 ≤ (compute_slope_and_aspect elevation z_factor cols x y).2.val ∧
      (compute_slope_and_aspect elevation z_factor cols x y).2.val < 2 * π := by
  simp only [compute_slope_and_aspect]
  exact aspect_tail_bounds _ _ _

/-- Witness for C6 at a concrete grid and interior cell. -/
theorem aspect_in_unit_turn_witness :
    0 ≤ (compute_slope_and_aspect (fun _ => F.ofReal 10) (F.ofReal 1) 3 1 1).2.val ∧
      (compute_slope_and_aspect (fun _ => F.ofReal 10) (F.ofReal 1) 3 1 1).2.val < 2 * π :=
  aspect_in_unit_turn (fun _ => F.ofReal 10) (F.ofReal 1) 3 3 1 1
    (by norm_num) (by norm_num) (by norm_num) (by norm_num)

/-- C7: `difference_between_angles` at normalizer 2π is symmetric in its two
angles and its result lies in the closed interval [0, π]. -/
theorem difference_between_angles_symm_and_bounded (a b : ℝ) :
    difference_between_angles a b (2 * π) = difference_between_angles b a (2 * π) ∧
      0 ≤ difference_between_angles a b (2 * π) ∧
      difference_between_angles a b (2 * π) ≤ π := by
  have h2π : (0 : ℝ) < 2 * π := by positivity
  have hna0 := normalize_angle_nonneg a (2 * π) h2π
  have hnb0 := normalize_angle_nonneg b (2 * π) h2π
  have hnalt := normalize_angle_lt a (2 * π) h2π
  have hnblt := normalize_angle_lt b (2 * π) h2π
  unfold difference_between_angles
  simp only
  rw [abs_sub_comm (normalize_angle b (2 * π)) (normalize_angle a (2 * π))]
  refine ⟨rfl, ?_⟩
  have habs0 : 0 ≤ |normalize_angle a (2 * π) - normalize_angle b (2 * π)| := abs_nonneg _
  have habslt : |normalize_angle a (2 * π) - normalize_angle b (2 * π)| < 2 * π := by
    rw [abs_sub_lt_iff]
    constructor <;> linarith
  split
  · constructor <;> [linarith; linarith [show 2 * π / 2 = π by ring]]
  · rename_i h
    push_neg at h
    constructor
    · exact habs0
    · calc |normalize_angle a (2 * π) - normalize_angle b (2 * π)| ≤ 2 * π / 2 := h
        _ = π := by ring

/-- The shading methods of `shared_types.rs`: Igor (azimuth), Oblique
(azimuth, altitude), Slope (altitude). -/
inductive ShadingMethod where
  | igor (azimuth : ℝ)
  | oblique (azimuth altitude : ℝ)
  | slope (altitude : ℝ)

/-- A shading definition: a method plus the packed 32-bit color
`[R:bits 24-31][G:16-23][B:8-15][weight:0-7]`. -/
structure Shading where
  method : ShadingMethod
  color : ℕ

/-- The per-definition illumination value computed by the match inside
`shade` (note `azimuth.to_radians()` in the Igor arm only). -/
noncomputable def shadingValue (aspect_rad slope_rad : ℝ) : ShadingMethod → ℝ
  | .igor azimuth =>
      let aspect_diff := difference_between_angles aspect_rad
        (π * 1.5 - azimuth * (π / 180)) (π * 2)
      let aspect_strength := 1 - aspect_diff / π
      1 - slope_rad * 2 * aspect_strength
  | .oblique azimuth altitude =>
      let zenith := π / 2 - altitude
      Real.cos zenith * Real.cos slope_rad +
        Real.sin zenith * Real.sin slope_rad * Real.cos (azimuth - aspect_rad)
  | .slope altitude =>
      let zenith := π / 2 - altitude
      Real.cos zenith * Real.cos slope_rad + Real.sin zenith * Real.sin slope_rad

/-- One definition's `mod`: `(weight byte / 255) * (1 - value)`. -/
noncomputable def modOf (aspect_rad slope_rad : ℝ) (s : Shading) : ℝ :=
  ((s.color % 256 : ℕ) : ℝ) / 255 * (1 - shadingValue aspect_rad slope_rad s.method)

/-- `f64::MIN_POSITIVE`, the ε added to the normalization factor. -/
noncomputable def f64MinPositive : ℝ := 2 ^ (-1022 : ℤ)

/-- `(v).clamp(0.0, 255.0) as u8` (truncation of the clamped value). -/
noncomputable def toByte (v : ℝ) : ℕ := (⌊min (max v 0) 255⌋).toNat

/-- One channel's weighted color sum inside `compute_channel`. -/
noncomputable def channelSum (aspect_rad slope_rad : ℝ) (shadings : List Shading)
    (shift : ℕ) : ℝ :=
  (List.zipWith (fun m s => m * (((s.color / 2 ^ shift) % 256 : ℕ) : ℝ) / 255)
    (shadings.map (modOf aspect_rad slope_rad)) shadings).sum

/-- `shade` from `shading.rs`: blends the definitions' illumination values
into one RGB pixel with contrast/brightness and the alpha lightening step. -/
noncomputable def shade (aspect_rad slope_rad : ℝ) (shadings : List Shading)
    (contrast brightness : ℝ) : ℕ × ℕ × ℕ :=
  let mods := shadings.map (modOf aspect_rad slope_rad)
  let norm := f64MinPositive + mods.sum
  let alpha := 1 - (mods.map (fun m => 1 - m)).prod
  let compute_channel := fun (shift : ℕ) =>
    let sum := channelSum aspect_rad slope_rad shadings shift
    let value := contrast * (sum / norm - 0.5) + 0.5 + brightness
    let value := value + (1 - value) * (1 - alpha)
    toByte (value * 255)
  (compute_channel 24, compute_channel 16, compute_channel 8)

/-- The spec's Igor value over an azimuth already given in radians. -/
noncomputable def igorValueRadians (azimuthRad aspect_rad slope_rad : ℝ) : ℝ :=
  1 - slope_rad * 2 *
    (1 - difference_between_angles aspect_rad (π * 1.5 - azimuthRad) (π * 2) / π)

/-- The spec's Oblique value over azimuth/altitude in radians. -/
noncomputable def obliqueValueRadians (azimuth altitude aspect_rad slope_rad : ℝ) : ℝ :=
  Real.cos (π / 2 - altitude) * Real.cos slope_rad +
    Real.sin (π / 2 - altitude) * Real.sin slope_rad * Real.cos (azimuth - aspect_rad)

/-- The spec's Slope value over an altitude in radians. -/
noncomputable def slopeValueRadians (altitude aspect_rad slope_rad : ℝ) : ℝ :=
  Real.cos (π / 2 - altitude) * Real.cos slope_rad +
    Real.sin (π / 2 - altitude) * Real.sin slope_rad

lemma difference_between_angles_sub_period (a b : ℝ) :
    difference_between_angles a (b - π * 2) (π * 2) =
      difference_between_angles a b (π * 2) := by
  unfold difference_between_angles
  rw [normalize_angle_sub_period b (π * 2) (by positivity)]

/-- C8: the Igor arm feeds `azimuth * (π/180)` (a degree→radian conversion)
into the radian-based formula — hence it is 360-periodic in its azimuth —
while the Oblique and Slope arms consume their azimuth/altitude unconverted
as radians, Oblique being 2π-periodic in its azimuth. -/
theorem igor_degrees_oblique_slope_radians (azimuth altitude aspect_rad slope_rad : ℝ) :
    shadingValue aspect_rad slope_rad (.igor azimuth) =
        igorValueRadians (azimuth * (π / 180)) aspect_rad slope_rad ∧
      shadingValue aspect_rad slope_rad (.oblique azimuth altitude) =
        obliqueValueRadians azimuth altitude aspect_rad slope_rad ∧
      shadingValue aspect_rad slope_rad (.slope altitude) =
        slopeValueRadians altitude aspect_rad slope_rad ∧
      shadingValue aspect_rad slope_rad (.igor (azimuth + 360)) =
        shadingValue aspect_rad slope_rad (.igor azimuth) ∧
      shadingValue aspect_rad slope_rad (.oblique (azimuth + 2 * π) altitude) =
        shadingValue aspect_rad slope_rad (.oblique azimuth altitude) := by
  refine ⟨rfl, rfl, rfl, ?_, ?_⟩
  · simp only [shadingValue]
    rw [show π * 1.5 - (azimuth + 360) * (π / 180) =
      π * 1.5 - azimuth * (π / 180) - π * 2 by ring]
    rw [difference_between_angles_sub_period]
  · simp only [shadingValue]
    rw [show azimuth + 2 * π - aspect_rad = azimuth - aspect_rad + 2 * π by ring,
      Real.cos_add_two_pi]

lemma toByte_eq_of {v : ℝ} {n : ℕ} (h1 : (n : ℝ) ≤ v) (h2 : v < n + 1) (h255 : v ≤ 255) :
    toByte v = n := by
  unfold toByte
  have h0 : (0 : ℝ) ≤ v := le_trans (by positivity) h1
  rw [max_eq_left h0, min_eq_left h255]
  have hfl : ⌊v⌋ = (n : ℤ) := by
    rw [Int.floor_eq_iff]
    refine ⟨by exact_mod_cast h1, ?_⟩
    push_cast
    linarith
  rw [hfl]
  exact Int.toNat_natCast n

/-- When every definition's mod is 0, `alpha` is 0 and the lightening step
pushes every channel to pure white, whatever the colors, contrast and
brightness are. -/
lemma shade_all_mods_zero (aspect_rad slope_rad contrast brightness : ℝ)
    (shadings : List Shading)
    (h : ∀ s ∈ shadings, modOf aspect_rad slope_rad s = 0) :
    shade aspect_rad slope_rad shadings contrast brightness = (255, 255, 255) := by
  have hsum : (shadings.map (modOf aspect_rad slope_rad)).sum = 0 := by
    apply List.sum_eq_zero
    intro x hx
    obtain ⟨s, hs, rfl⟩ := List.mem_map.mp hx
    exact h s hs
  have hprod : ((shadings.map (modOf aspect_rad slope_rad)).map (fun m => 1 - m)).prod = 1 := by
    apply List.prod_eq_one
    intro x hx
    obtain ⟨mm, hmm, rfl⟩ := List.mem_map.mp hx
    obtain ⟨s, hs, rfl⟩ := List.mem_map.mp hmm
    rw [h s hs, sub_zero]
  have hcs : ∀ shift : ℕ, channelSum aspect_rad slope_rad shadings shift = 0 := by
    intro shift
    unfold channelSum
    rw [List.zipWith_map_left, List.zipWith_same]
    apply List.sum_eq_zero
    intro x hx
    obtain ⟨s, hs, rfl⟩ := List.mem_map.mp hx
    rw [h s hs, zero_mul, zero_div]
  simp only [shade, hsum, hprod, hcs]
  have harg : (contrast * (0 / (f64MinPositive + 0) - 0.5) + 0.5 + brightness +
      (1 - (contrast * (0 / (f64MinPositive + 0) - 0.5) + 0.5 + brightness)) * (1 - (1 - 1)))
        * 255 = 255 := by
    rw [zero_div]
    ring
  rw [harg]
  have htb : toByte 255 = 255 := toByte_eq_of (by norm_num) (by norm_num) (by norm_num)
  rw [htb]

/-- Evaluation behind C5: a lone Slope definition with the sun straight up
(altitude π/2) on flat ground has illumination 1, hence mod 0, so `shade`
returns pure white whatever the packed RGB bytes are. -/
lemma slope_overhead_eval (aspect_rad : ℝ) (c : ℕ) (hc : c % 256 = 255) :
    shadingValue aspect_rad 0 (.slope (π / 2)) = 1 ∧
      shade aspect_rad 0 [⟨.slope (π / 2), c⟩] 1 0 = (255, 255, 255) := by
  have hval : shadingValue aspect_rad 0 (.slope (π / 2)) = 1 := by
    simp only [shadingValue, sub_self, Real.cos_zero, Real.sin_zero]
    ring
  refine ⟨hval, ?_⟩
  apply shade_all_mods_zero
  intro s hs
  rw [List.mem_singleton] at hs
  subst hs
  unfold modOf
  simp only [hc, hval]
  ring

/-- C5 counterexample: with the definition's RGB bytes all 0 (color word
255 = weight byte only), the claimed pixel would be (0,0,0), but `shade`
returns (255,255,255). -/
theorem slope_overhead_pixel_counterexample :
    shade 0 0 [⟨.slope (π / 2), 255⟩] 1 0 = (255, 255, 255) ∧
      shade 0 0 [⟨.slope (π / 2), 255⟩] 1 0 ≠
        (255 / 2 ^ 24 % 256, 255 / 2 ^ 16 % 256, 255 / 2 ^ 8 % 256) := by
  obtain ⟨-, hp⟩ := slope_overhead_eval 0 255 (by norm_num)
  refine ⟨hp, ?_⟩
  rw [hp]
  norm_num

/-- C5 amended: a single Slope definition with altitude π/2 and weight byte
255 at slope 0, contrast 1, brightness 0, has illumination value 1 for every
aspect, and the resulting pixel is pure white (255,255,255) — the zero mod
makes alpha 0 and the lightening step saturates every channel — rather than
the definition's packed RGB bytes (it equals them only when they are all 255). -/
theorem slope_overhead_value_one_pixel_white (aspect_rad : ℝ) (c : ℕ) (hc : c % 256 = 255) :
    shadingValue aspect_rad 0 (.slope (π / 2)) = 1 ∧
      shade aspect_rad 0 [⟨.slope (π / 2), c⟩] 1 0 = (255, 255, 255) :=
  slope_overhead_eval aspect_rad c hc

/-- Witness for the amended C5 at aspect 0 and an all-bytes-set color. -/
theorem slope_overhead_value_one_pixel_white_witness :
    shadingValue 0 0 (.slope (π / 2)) = 1 ∧
      shade 0 0 [⟨.slope (π / 2), 4294967295⟩] 1 0 = (255, 255, 255) :=
  slope_overhead_value_one_pixel_white 0 4294967295 (by norm_num)

lemma packed_low_byte (rgb w : ℕ) (hw : w < 256) : (rgb * 256 + w) % 256 = w := by
  omega

lemma packed_high_byte (rgb w shift : ℕ) (hw : w < 256) (hs : 8 ≤ shift) :
    (rgb * 256 + w) / 2 ^ shift % 256 = rgb / 2 ^ (shift - 8) % 256 := by
  obtain ⟨k, rfl⟩ : ∃ k, shift = 8 + k := ⟨shift - 8, by omega⟩
  rw [pow_add, ← Nat.div_div_eq_div_mul, show (2 : ℕ) ^ 8 = 256 by norm_num,
    show (rgb * 256 + w) / 256 = rgb by omega, Nat.add_sub_cancel_left]

/-- With contrast 1, brightness 0 and every definition's color word below
256 (all RGB bytes zero), the pixel is the grey
`toByte (255 * prod (1 - mod_i))` in each channel. -/
lemma shade_rgb0 (a s : ℝ) (ds : List Shading) (hb : ∀ d ∈ ds, d.color < 256) :
    shade a s ds 1 0 =
      (toByte ((ds.map (fun d => 1 - modOf a s d)).prod * 255),
        toByte ((ds.map (fun d => 1 - modOf a s d)).prod * 255),
        toByte ((ds.map (fun d => 1 - modOf a s d)).prod * 255)) := by
  have hcs : ∀ shift : ℕ, 8 ≤ shift → channelSum a s ds shift = 0 := by
    intro shift hs
    unfold channelSum
    rw [List.zipWith_map_left, List.zipWith_same]
    apply List.sum_eq_zero
    intro x hx
    obtain ⟨d, hd, rfl⟩ := List.mem_map.mp hx
    have hz : d.color / 2 ^ shift = 0 := by
      apply Nat.div_eq_of_lt
      calc d.color < 256 := hb d hd
        _ = 2 ^ 8 := by norm_num
        _ ≤ 2 ^ shift := Nat.pow_le_pow_right (by norm_num) hs
    rw [hz]
    norm_num
  have hprodmap : (List.map (fun m => 1 - m) (List.map (modOf a s) ds)).prod =
      (ds.map (fun d => 1 - modOf a s d)).prod := by
    rw [List.map_map]
    rfl
  simp only [shade, hcs 24 (by norm_num), hcs 16 (by norm_num), hcs 8 (by norm_num), hprodmap]
  have harg : (1 * (0 / (f64MinPositive + (List.map (modOf a s) ds).sum) - 0.5) + 0.5 + 0 +
      (1 - (1 * (0 / (f64MinPositive + (List.map (modOf a s) ds).sum) - 0.5) + 0.5 + 0)) *
        (1 - (1 - (ds.map (fun d => 1 - modOf a s d)).prod))) * 255 =
      (ds.map (fun d => 1 - modOf a s d)).prod * 255 := by
    rw [zero_div]
    ring
  rw [harg]

/-- C4 counterexample: one Slope definition at weight 254 (RGB bytes 0)
versus the same definition twice at weight 127 each; the single call gives
pixel (1,1,1) while the duplicated half-weight call gives (64,64,64),
because `alpha = 1 - prod (1 - mod_i)` is not additive in the mods. -/
theorem shade_half_weight_counterexample :
    shade 0 0 [⟨.slope 0, 254⟩] 1 0 = (1, 1, 1) ∧
      shade 0 0 [⟨.slope 0, 127⟩, ⟨.slope 0, 127⟩] 1 0 = (64, 64, 64) ∧
      shade 0 0 [⟨.slope 0, 127⟩, ⟨.slope 0, 127⟩] 1 0 ≠
        shade 0 0 [⟨.slope 0, 254⟩] 1 0 := by
  have hv : shadingValue 0 0 (ShadingMethod.slope 0) = 0 := by
    simp only [shadingValue, sub_zero, Real.cos_pi_div_two, Real.sin_pi_div_two,
      Real.cos_zero, Real.sin_zero]
    ring
  have hm254 : modOf 0 0 ⟨ShadingMethod.slope 0, 254⟩ = 254 / 255 := by
    unfold modOf
    simp only [hv]
    norm_num
  have hm127 : modOf 0 0 ⟨ShadingMethod.slope 0, 127⟩ = 127 / 255 := by
    unfold modOf
    simp only [hv]
    norm_num
  have h1 : shade 0 0 [⟨.slope 0, 254⟩] 1 0 = (1, 1, 1) := by
    rw [shade_rgb0 0 0 _ (by
      intro d hd
      rw [List.mem_singleton] at hd
      subst hd
      norm_num)]
    simp only [List.map_cons, List.map_nil, List.prod_cons, List.prod_nil, hm254]
    rw [show ((1 : ℝ) - 254 / 255) * 1 * 255 = 1 by norm_num]
    rw [toByte_eq_of (n := 1) (by norm_num) (by norm_num) (by norm_num)]
  have h2 : shade 0 0 [⟨.slope 0, 127⟩, ⟨.slope 0, 127⟩] 1 0 = (64, 64, 64) := by
    rw [shade_rgb0 0 0 _ (by
      intro d hd
      simp only [List.mem_cons, List.mem_singleton, List.not_mem_nil, or_false] at hd
      rcases hd with rfl | rfl <;> norm_num)]
    simp only [List.map_cons, List.map_nil, List.prod_cons, List.prod_nil, hm127]
    rw [show ((1 : ℝ) - 127 / 255) * (((1 : ℝ) - 127 / 255) * 1) * 255 = 16384 / 255 by
      norm_num]
    rw [toByte_eq_of (n := 64) (by norm_num) (by norm_num) (by norm_num)]
  refine ⟨h1, h2, ?_⟩
  rw [h1, h2]
  decide

/-- C4 amended: splitting one definition into two copies whose weight bytes
sum to the original (in particular two half-weight copies of an even weight)
preserves the mod sum and every channel's weighted color sum — the mods are
linear in the weight — and yields the same pixel when the definition's mod
is 0; but `alpha = 1 - prod (1 - mod_i)` is not additive, so in general the
duplicated call produces a different (lighter) pixel, as the counterexample
shows. -/
theorem shade_weight_split (aspect_rad slope_rad contrast brightness : ℝ)
    (m : ShadingMethod) (rgb w1 w2 : ℕ) (hw : w1 + w2 < 256) :
    modOf aspect_rad slope_rad ⟨m, rgb * 256 + w1⟩ +
        modOf aspect_rad slope_rad ⟨m, rgb * 256 + w2⟩ =
        modOf aspect_rad slope_rad ⟨m, rgb * 256 + (w1 + w2)⟩ ∧
      (∀ shift : ℕ, 8 ≤ shift →
        channelSum aspect_rad slope_rad
            [⟨m, rgb * 256 + w1⟩, ⟨m, rgb * 256 + w2⟩] shift =
          channelSum aspect_rad slope_rad [⟨m, rgb * 256 + (w1 + w2)⟩] shift) ∧
      (modOf aspect_rad slope_rad ⟨m, rgb * 256 + (w1 + w2)⟩ = 0 →
        shade aspect_rad slope_rad [⟨m, rgb * 256 + w1⟩, ⟨m, rgb * 256 + w2⟩]
            contrast brightness =
          shade aspect_rad slope_rad [⟨m, rgb * 256 + (w1 + w2)⟩]
            contrast brightness) := by
  have hb1 : (rgb * 256 + w1) % 256 = w1 := packed_low_byte rgb w1 (by omega)
  have hb2 : (rgb * 256 + w2) % 256 = w2 := packed_low_byte rgb w2 (by omega)
  have hbf : (rgb * 256 + (w1 + w2)) % 256 = w1 + w2 := packed_low_byte rgb (w1 + w2) hw
  have hm : modOf aspect_rad slope_rad ⟨m, rgb * 256 + w1⟩ +
      modOf aspect_rad slope_rad ⟨m, rgb * 256 + w2⟩ =
      modOf aspect_rad slope_rad ⟨m, rgb * 256 + (w1 + w2)⟩ := by
    unfold modOf
    simp only [hb1, hb2, hbf]
    push_cast
    ring
  refine ⟨hm, ?_, ?_⟩
  · intro shift hs
    unfold channelSum
    simp only [List.map_cons, List.map_nil, List.zipWith_cons_cons, List.zipWith_nil_left,
      List.sum_cons, List.sum_nil]
    rw [packed_high_byte rgb w1 shift (by omega) hs,
      packed_high_byte rgb w2 shift (by omega) hs,
      packed_high_byte rgb (w1 + w2) shift hw hs]
    rw [← hm]
    ring
  · intro h0
    have hz : ((w1 + w2 : ℕ) : ℝ) / 255 * (1 - shadingValue aspect_rad slope_rad m) = 0 := by
      unfold modOf at h0
      simpa only [hbf] using h0
    have hmods : ∀ s ∈ [(⟨m, rgb * 256 + w1⟩ : Shading), ⟨m, rgb * 256 + w2⟩],
        modOf aspect_rad slope_rad s = 0 := by
      rcases mul_eq_zero.mp hz with h | h
      · have hww : w1 + w2 = 0 := by
          rw [div_eq_zero_iff] at h
          rcases h with h | h
          · exact_mod_cast h
          · norm_num at h
        obtain ⟨hw1, hw2⟩ : w1 = 0 ∧ w2 = 0 := by omega
        intro s hs
        simp only [List.mem_cons, List.mem_singleton, List.not_mem_nil, or_false] at hs
        rcases hs with rfl | rfl <;> unfold modOf <;> simp [hb1, hb2, hw1, hw2]
      · intro s hs
        simp only [List.mem_cons, List.mem_singleton, List.not_mem_nil, or_false] at hs
        rcases hs with rfl | rfl <;> unfold modOf <;> simp [h]
    rw [shade_all_mods_zero _ _ _ _ _ hmods, shade_all_mods_zero _ _ _ _ _ (by
      intro s hs
      rw [List.mem_singleton] at hs
      subst hs
      exact h0)]

/-- Witness for the amended C4: two weight-127 copies against one weight-254
definition at concrete shading inputs. -/
theorem shade_weight_split_witness :
    modOf 0 0 ⟨.slope 0, 0 * 256 + 127⟩ + modOf 0 0 ⟨.slope 0, 0 * 256 + 127⟩ =
        modOf 0 0 ⟨.slope 0, 0 * 256 + (127 + 127)⟩ ∧
      (∀ shift : ℕ, 8 ≤ shift →
        channelSum 0 0 [⟨.slope 0, 0 * 256 + 127⟩, ⟨.slope 0, 0 * 256 + 127⟩] shift =
          channelSum 0 0 [⟨.slope 0, 0 * 256 + (127 + 127)⟩] shift) ∧
      (modOf 0 0 ⟨.slope 0, 0 * 256 + (127 + 127)⟩ = 0 →
        shade 0 0 [⟨.slope 0, 0 * 256 + 127⟩, ⟨.slope 0, 0 * 256 + 127⟩] 1 0 =
          shade 0 0 [⟨.slope 0, 0 * 256 + (127 + 127)⟩] 1 0) :=
  shade_weight_split 0 0 1 0 (.slope 0) 0 127 127 (by norm_num)

/-- LiDAR point classifications; the code only tests against Ground. -/
inductive Classification where
  | ground
  | unclassified
  | lowVegetation
  | building
  | water
  | other
  deriving DecidableEq

/-- A decoded LAS point: archive-CRS position, elevation, classification. -/
structure LasPoint where
  x : ℝ
  y : ℝ
  z : ℝ
  classification : Classification

/-- An axis-aligned bounding box. -/
structure BBox where
  min_x : ℝ
  min_y : ℝ
  max_x : ℝ
  max_y : ℝ

/-- Modelled from the spec: `BBox::contains` of the external `maptile`
crate (not in this repository's sources), the point containment test of
an axis-aligned box; taken as closed on all sides, matching the spec's
interval-overlap conventions.  The ingestion claims are insensitive to
the strictness of the comparisons. -/
def BBox.contains (b : BBox) (x y : ℝ) : Prop :=
  b.min_x ≤ x ∧ x ≤ b.max_x ∧ b.min_y ≤ y ∧ y ≤ b.max_y

noncomputable instance (b : BBox) (x y : ℝ) : Decidable (b.contains x y) := by
  unfold BBox.contains
  infer_instance

/-- A point accepted into a tile buffer: working-CRS position and height. -/
structure PointWithHeight where
  position : ℝ × ℝ
  height : ℝ

/-- The body of the per-point loop in `read`: classification test, archive
box pre-filter, reprojection, working-extent test, then one append decision
per tile (in tile order).  `none` at a tile position means nothing is pushed
onto that tile's buffer. -/
noncomputable def processPoint (proj : ℝ → ℝ → ℝ × ℝ) (bbox8353 workBbox : BBox)
    (tiles : List BBox) (p : LasPoint) : List (Option PointWithHeight) :=
  if p.classification ≠ .ground then tiles.map fun _ => none
  else if ¬ bbox8353.contains p.x p.y then tiles.map fun _ => none
  else
    let xy := proj p.x p.y
    if ¬ workBbox.contains xy.1 xy.2 then tiles.map fun _ => none
    else tiles.map fun t => if t.contains xy.1 xy.2 then some ⟨xy, p.z⟩ else none

/-- The same decision seen from a single tile. -/
noncomputable def pointDecision (proj : ℝ → ℝ → ℝ × ℝ) (bbox8353 workBbox tile : BBox)
    (p : LasPoint) : Option PointWithHeight :=
  if p.classification ≠ .ground then none
  else if ¬ bbox8353.contains p.x p.y then none
  else
    let xy := proj p.x p.y
    if ¬ workBbox.contains xy.1 xy.2 then none
    else if tile.contains xy.1 xy.2 then some ⟨xy, p.z⟩ else none

/-- One iteration of the point loop over the shared per-tile buffers. -/
noncomputable def appendPoints (proj : ℝ → ℝ → ℝ × ℝ) (bbox8353 workBbox : BBox)
    (tiles : List BBox) (bufs : List (List PointWithHeight)) (p : LasPoint) :
    List (List PointWithHeight) :=
  List.zipWith (fun buf o => buf ++ o.toList) bufs
    (processPoint proj bbox8353 workBbox tiles p)

/-- The point loop of `read` over one file's point stream, starting from
empty per-tile buffers. -/
noncomputable def readPoints (proj : ℝ → ℝ → ℝ × ℝ) (bbox8353 workBbox : BBox)
    (tiles : List BBox) (ps : List LasPoint) : List (List PointWithHeight) :=
  ps.foldl (appendPoints proj bbox8353 workBbox tiles) (tiles.map fun _ => [])

lemma processPoint_eq_map (proj : ℝ → ℝ → ℝ × ℝ) (bbox8353 workBbox : BBox)
    (tiles : List BBox) (p : LasPoint) :
    processPoint proj bbox8353 workBbox tiles p =
      tiles.map (fun t => pointDecision proj bbox8353 workBbox t p) := by
  unfold processPoint pointDecision
  by_cases h1 : p.classification ≠ .ground
  · simp [h1]
  · by_cases h2 : bbox8353.contains p.x p.y
    · by_cases h3 : workBbox.contains (proj p.x p.y).1 (proj p.x p.y).2
      · simp [h1, h2, h3]
      · simp [h1, h2, h3]
    · simp [h1, h2]

lemma processPoint_length (proj : ℝ → ℝ → ℝ × ℝ) (bbox8353 workBbox : BBox)
    (tiles : List BBox) (p : LasPoint) :
    (processPoint proj bbox8353 workBbox tiles p).length = tiles.length := by
  rw [processPoint_eq_map, List.length_map]

lemma appendPoints_length (proj : ℝ → ℝ → ℝ × ℝ) (bbox8353 workBbox : BBox)
    (tiles : List BBox) (bufs : List (List PointWithHeight)) (p : LasPoint)
    (hlen : bufs.length = tiles.length) :
    (appendPoints proj bbox8353 workBbox tiles bufs p).length = tiles.length := by
  unfold appendPoints
  rw [List.length_zipWith, processPoint_length, hlen, min_self]

lemma appendPoints_getElem (proj : ℝ → ℝ → ℝ × ℝ) (bbox8353 workBbox : BBox)
    (tiles : List BBox) (bufs : List (List PointWithHeight)) (p : LasPoint)
    (i : ℕ) (hi : i < tiles.length) (hlen : bufs.length = tiles.length) :
    (appendPoints proj bbox8353 workBbox tiles bufs p)[i]? =
      some ((bufs[i]?).getD [] ++
        (pointDecision proj bbox8353 workBbox (tiles.get ⟨i, hi⟩) p).toList) := by
  unfold appendPoints
  rw [List.getElem?_zipWith, processPoint_eq_map, List.getElem?_map]
  have hib : i < bufs.length := by omega
  rw [List.getElem?_eq_getElem hib, List.getElem?_eq_getElem hi]
  rfl

lemma readPoints_foldl_getElem (proj : ℝ → ℝ → ℝ × ℝ) (bbox8353 workBbox : BBox)
    (tiles : List BBox) (ps : List LasPoint) :
    ∀ (bufs : List (List PointWithHeight)), bufs.length = tiles.length →
      ∀ (i : ℕ) (hi : i < tiles.length),
      ((ps.foldl (appendPoints proj bbox8353 workBbox tiles) bufs)[i]?).getD [] =
        ((bufs[i]?).getD []) ++
          ps.filterMap (pointDecision proj bbox8353 workBbox (tiles.get ⟨i, hi⟩)) := by
  induction ps with
  | nil =>
    intro bufs hlen i hi
    simp
  | cons p ps ih =>
    intro bufs hlen i hi
    rw [List.foldl_cons,
      ih (appendPoints proj bbox8353 workBbox tiles bufs p)
        (appendPoints_length proj bbox8353 workBbox tiles bufs p hlen) i hi,
      appendPoints_getElem proj bbox8353 workBbox tiles bufs p i hi hlen,
      Option.getD_some, List.filterMap_cons]
    cases hpd : pointDecision proj bbox8353 workBbox (tiles.get ⟨i, hi⟩) p with
    | none => simp
    | some v => simp

lemma pointDecision_eq_some (proj : ℝ → ℝ → ℝ × ℝ) (bbox8353 workBbox tile : BBox)
    (p : LasPoint) (q : PointWithHeight) :
    pointDecision proj bbox8353 workBbox tile p = some q ↔
      p.classification = .ground ∧ bbox8353.contains p.x p.y ∧
        workBbox.contains (proj p.x p.y).1 (proj p.x p.y).2 ∧
        tile.contains (proj p.x p.y).1 (proj p.x p.y).2 ∧
        q = ⟨proj p.x p.y, p.z⟩ := by
  unfold pointDecision
  split_ifs with h1 h2 h3 h4 <;>
    simp_all [eq_comm]

/-- C1: after processing a point stream, a `PointWithHeight` is in tile `i`'s
buffer exactly when some stream point is Ground-classified, lies in the
archive-CRS query box, reprojects into the overall working extent, and tile
`i`'s buffered bbox contains the reprojected position; the point is recorded
with the reprojected position and its original z.  Since this holds for
every tile index, a point in the overlap of two tiles' buffered boxes
appears in both buffers. -/
theorem read_tile_buffer_mem_iff (proj : ℝ → ℝ → ℝ × ℝ) (bbox8353 workBbox : BBox)
    (tiles : List BBox) (ps : List LasPoint) (i : ℕ) (hi : i < tiles.length)
    (q : PointWithHeight) :
    q ∈ ((readPoints proj bbox8353 workBbox tiles ps)[i]?).getD [] ↔
      ∃ p ∈ ps, p.classification = .ground ∧ bbox8353.contains p.x p.y ∧
        workBbox.contains (proj p.x p.y).1 (proj p.x p.y).2 ∧
        (tiles.get ⟨i, hi⟩).contains (proj p.x p.y).1 (proj p.x p.y).2 ∧
        q = ⟨proj p.x p.y, p.z⟩ := by
  unfold readPoints
  rw [readPoints_foldl_getElem proj bbox8353 workBbox tiles ps
    (tiles.map fun _ => []) (by rw [List.length_map]) i hi]
  have hinit : (((tiles.map fun _ => ([] : List PointWithHeight))[i]?).getD []) = [] := by
    rw [List.getElem?_map]
    cases tiles[i]? <;> rfl
  rw [hinit, List.nil_append, List.mem_filterMap]
  constructor
  · rintro ⟨p, hp, hd⟩
    exact ⟨p, hp, (pointDecision_eq_some proj bbox8353 workBbox _ p q).mp hd⟩
  · rintro ⟨p, hp, hd⟩
    exact ⟨p, hp, (pointDecision_eq_some proj bbox8353 workBbox _ p q).mpr hd⟩

/-- Witness for C1 at a concrete configuration: one tile covering the unit
square, identity reprojection, a single ground point at the origin. -/
theorem read_tile_buffer_mem_iff_witness :
    (⟨((0 : ℝ), (0 : ℝ)), (5 : ℝ)⟩ : PointWithHeight) ∈
        ((readPoints (fun x y => (x, y)) ⟨-1, -1, 1, 1⟩ ⟨-1, -1, 1, 1⟩
          [⟨-1, -1, 1, 1⟩] [⟨0, 0, 5, .ground⟩])[0]?).getD [] ↔
      ∃ p ∈ [(⟨0, 0, 5, .ground⟩ : LasPoint)], p.classification = .ground ∧
        BBox.contains ⟨-1, -1, 1, 1⟩ p.x p.y ∧
        BBox.contains ⟨-1, -1, 1, 1⟩ ((fun x y => (x, y)) p.x p.y).1
          ((fun x y => (x, y)) p.x p.y).2 ∧
        BBox.contains (([(⟨-1, -1, 1, 1⟩ : BBox)]).get ⟨0, by norm_num⟩)
          ((fun x y => (x, y)) p.x p.y).1 ((fun x y => (x, y)) p.x p.y).2 ∧
        (⟨((0 : ℝ), (0 : ℝ)), (5 : ℝ)⟩ : PointWithHeight) = ⟨(fun x y => (x, y)) p.x p.y, p.z⟩ :=
  read_tile_buffer_mem_iff (fun x y => (x, y)) ⟨-1, -1, 1, 1⟩ ⟨-1, -1, 1, 1⟩
    [⟨-1, -1, 1, 1⟩] [⟨0, 0, 5, .ground⟩] 0 (by norm_num) ⟨((0 : ℝ), (0 : ℝ)), (5 : ℝ)⟩

/-- One point of a file stream, with decode fallibility explicit: the
source's `point.unwrap()` propagates the failure (a panic aborting the
run), modelled as the `Except` error short-circuiting the fold. -/
noncomputable def stepPointE (proj : ℝ → ℝ → ℝ × ℝ) (bbox8353 workBbox : BBox)
    (tiles : List BBox) (bufs : List (List PointWithHeight))
    (pe : Except String LasPoint) : Except String (List (List PointWithHeight)) := do
  let p ← pe
  pure (appendPoints proj bbox8353 workBbox tiles bufs p)

/-- One archive file, with open fallibility explicit: the source's
`Reader::from_path(file).unwrap()` propagates the failure, modelled as the
`Except` error; an opened file streams its points through `stepPointE`. -/
noncomputable def stepFileE (proj : ℝ → ℝ → ℝ × ℝ) (bbox8353 workBbox : BBox)
    (tiles : List BBox) (bufs : List (List PointWithHeight))
    (f : Except String (List (Except String LasPoint))) :
    Except String (List (List PointWithHeight)) := do
  let pts ← f
  pts.foldlM (stepPointE proj bbox8353 workBbox tiles) bufs

/-- The ingestion over all matching files (the parallel fan-out modelled as
a fold: the claim concerns only whether any failure is fatal).  The result
is the per-tile buffers, or the first error with no partial output. -/
noncomputable def readFilesE (proj : ℝ → ℝ → ℝ × ℝ) (bbox8353 workBbox : BBox)
    (tiles : List BBox)
    (files : List (Except String (List (Except String LasPoint)))) :
    Except String (List (List PointWithHeight)) :=
  files.foldlM (stepFileE proj bbox8353 workBbox tiles) (tiles.map fun _ => [])

lemma stepPointE_error (proj : ℝ → ℝ → ℝ × ℝ) (bbox8353 workBbox : BBox)
    (tiles : List BBox) (bufs : List (List PointWithHeight)) (e : String) :
    stepPointE proj bbox8353 workBbox tiles bufs (.error e) = .error e := rfl

lemma stepPointE_ok (proj : ℝ → ℝ → ℝ × ℝ) (bbox8353 workBbox : BBox)
    (tiles : List BBox) (bufs : List (List PointWithHeight)) (p : LasPoint) :
    stepPointE proj bbox8353 workBbox tiles bufs (.ok p) =
      .ok (appendPoints proj bbox8353 workBbox tiles bufs p) := rfl

lemma stepFileE_error (proj : ℝ → ℝ → ℝ × ℝ) (bbox8353 workBbox : BBox)
    (tiles : List BBox) (bufs : List (List PointWithHeight)) (e : String) :
    stepFileE proj bbox8353 workBbox tiles bufs (.error e) = .error e := rfl

lemma stepFileE_ok (proj : ℝ → ℝ → ℝ × ℝ) (bbox8353 workBbox : BBox)
    (tiles : List BBox) (bufs : List (List PointWithHeight))
    (pts : List (Except String LasPoint)) :
    stepFileE proj bbox8353 workBbox tiles bufs (.ok pts) =
      pts.foldlM (stepPointE proj bbox8353 workBbox tiles) bufs := rfl

lemma pointFoldE_ok_iff (proj : ℝ → ℝ → ℝ × ℝ) (bbox8353 workBbox : BBox)
    (tiles : List BBox) (pts : List (Except String LasPoint)) :
    ∀ bufs : List (List PointWithHeight),
      (∃ out, pts.foldlM (stepPointE proj bbox8353 workBbox tiles) bufs = .ok out) ↔
        ∀ pe ∈ pts, ∃ p, pe = .ok p := by
  induction pts with
  | nil =>
    intro bufs
    constructor
    · intro _ pe hpe
      exact absurd hpe (List.not_mem_nil pe)
    · intro _
      exact ⟨bufs, rfl⟩
  | cons pe pts ih =>
    intro bufs
    rw [List.foldlM_cons]
    cases pe with
    | error e =>
      rw [stepPointE_error]
      constructor
      · rintro ⟨out, hout⟩
        exact Except.noConfusion (show Except.error e = Except.ok out from hout)
      · intro hall
        obtain ⟨p, hp⟩ := hall (Except.error e) (List.mem_cons_self _ _)
        exact Except.noConfusion hp
    | ok p =>
      rw [stepPointE_ok]
      rw [show ((Except.ok (appendPoints proj bbox8353 workBbox tiles bufs p) :
          Except String (List (List PointWithHeight))) >>= fun b =>
            pts.foldlM (stepPointE proj bbox8353 workBbox tiles) b) =
          pts.foldlM (stepPointE proj bbox8353 workBbox tiles)
            (appendPoints proj bbox8353 workBbox tiles bufs p) from rfl]
      rw [ih (appendPoints proj bbox8353 workBbox tiles bufs p)]
      constructor
      · intro h pe2 hpe2
        rcases List.mem_cons.mp hpe2 with rfl | hpe2
        · exact ⟨p, rfl⟩
        · exact h pe2 hpe2
      · intro hall pe2 hpe2
        exact hall pe2 (List.mem_cons_of_mem _ hpe2)

lemma fileFoldE_ok_iff (proj : ℝ → ℝ → ℝ × ℝ) (bbox8353 workBbox : BBox)
    (tiles : List BBox) (files : List (Except String (List (Except String LasPoint)))) :
    ∀ bufs : List (List PointWithHeight),
      (∃ out, files.foldlM (stepFileE proj bbox8353 workBbox tiles) bufs = .ok out) ↔
        ∀ f ∈ files, ∃ pts, f = .ok pts ∧ ∀ pe ∈ pts, ∃ p, pe = .ok p := by
  induction files with
  | nil =>
    intro bufs
    constructor
    · intro _ f hf
      exact absurd hf (List.not_mem_nil f)
    · intro _
      exact ⟨bufs, rfl⟩
  | cons f files ih =>
    intro bufs
    rw [List.foldlM_cons]
    cases f with
    | error e =>
      rw [stepFileE_error]
      constructor
      · rintro ⟨out, hout⟩
        exact Except.noConfusion (show Except.error e = Except.ok out from hout)
      · intro hall
        obtain ⟨pts, hpts, -⟩ := hall (Except.error e) (List.mem_cons_self _ _)
        exact Except.noConfusion hpts
    | ok pts =>
      rw [stepFileE_ok]
      by_cases hpts : ∀ pe ∈ pts, ∃ p, pe = .ok p
      · obtain ⟨mid, hmid⟩ :=
          (pointFoldE_ok_iff proj bbox8353 workBbox tiles pts bufs).mpr hpts
        rw [hmid]
        rw [show ((Except.ok mid : Except String (List (List PointWithHeight))) >>= fun b =>
            files.foldlM (stepFileE proj bbox8353 workBbox tiles) b) =
            files.foldlM (stepFileE proj bbox8353 workBbox tiles) mid from rfl]
        rw [ih mid]
        constructor
        · intro h f2 hf2
          rcases List.mem_cons.mp hf2 with rfl | hf2
          · exact ⟨pts, rfl, hpts⟩
          · exact h f2 hf2
        · intro hall f2 hf2
          exact hall f2 (List.mem_cons_of_mem _ hf2)
      · have hne : ¬ ∃ out,
            pts.foldlM (stepPointE proj bbox8353 workBbox tiles) bufs = .ok out :=
          fun h => hpts ((pointFoldE_ok_iff proj bbox8353 workBbox tiles pts bufs).mp h)
        cases hres : pts.foldlM (stepPointE proj bbox8353 workBbox tiles) bufs with
        | ok out => exact absurd ⟨out, hres⟩ hne
        | error e =>
          rw [show ((Except.error e : Except String (List (List PointWithHeight))) >>=
              fun b => files.foldlM (stepFileE proj bbox8353 workBbox tiles) b) =
              Except.error e from rfl]
          constructor
          · rintro ⟨out, hout⟩
            exact Except.noConfusion (show Except.error e = Except.ok out from hout)
          · intro hall
            obtain ⟨pts2, hpts2, hall2⟩ := hall (Except.ok pts) (List.mem_cons_self _ _)
            obtain rfl : pts = pts2 := by
              injection hpts2
            exact absurd hall2 hpts

/-- C9: the ingestion produces buffers exactly when every archive file opens
and every point decodes; any open failure or per-point decode failure makes
the whole run an error, with no partial buffer output escaping. -/
theorem read_failure_fatal (proj : ℝ → ℝ → ℝ × ℝ) (bbox8353 workBbox : BBox)
    (tiles : List BBox)
    (files : List (Except String (List (Except String LasPoint)))) :
    (∃ bufs, readFilesE proj bbox8353 workBbox tiles files = .ok bufs) ↔
      ∀ f ∈ files, ∃ pts, f = .ok pts ∧ ∀ pe ∈ pts, ∃ p, pe = .ok p :=
  fileFoldE_ok_iff proj bbox8353 workBbox tiles files (tiles.map fun _ => [])

/-- An RGB pixel as three byte values. -/
abbrev Rgb := ℕ × ℕ × ℕ

/-- Function model of `get_pixel_mut(px, py).0 = v` on an image. -/
def putPixel (img : ℕ → ℕ → Rgb) (px py : ℕ) (v : Rgb) : ℕ → ℕ → Rgb :=
  fun a b => if a = px ∧ b = py then v else img a b

/-- `compute_hillshade` from `shading.rs`: a cols×rows image created all
zero (`RgbImage::new`), then for y in `1..rows-1` and x in `1..cols-1` the
pixel at (x, rows − y) is set to `compute_rgb(aspect, slope)` of cell
(x, y). -/
noncomputable def compute_hillshade (elevation : ℕ → F) (z_factor : F)
    (rows cols : ℕ) (compute_rgb : F → F → Rgb) : ℕ → ℕ → Rgb :=
  (List.range' 1 (rows - 2)).foldl
    (fun img y =>
      (List.range' 1 (cols - 2)).foldl
        (fun im x =>
          putPixel im x (rows - y)
            (compute_rgb (compute_slope_and_aspect elevation z_factor cols x y).2
              (compute_slope_and_aspect elevation z_factor cols x y).1))
        img)
    (fun _ _ => (0, 0, 0))

lemma inner_row_apply (elevation : ℕ → F) (z_factor : F) (rows cols : ℕ)
    (compute_rgb : F → F → Rgb) (y : ℕ) :
    ∀ (xs : List ℕ) (img : ℕ → ℕ → Rgb) (px py : ℕ),
      (xs.foldl (fun im x => putPixel im x (rows - y)
          (compute_rgb (compute_slope_and_aspect elevation z_factor cols x y).2
            (compute_slope_and_aspect elevation z_factor cols x y).1)) img) px py =
        if px ∈ xs ∧ py = rows - y then
          compute_rgb (compute_slope_and_aspect elevation z_factor cols px y).2
            (compute_slope_and_aspect elevation z_factor cols px y).1
        else img px py := by
  intro xs
  induction xs with
  | nil =>
    intro img px py
    simp
  | cons x xs ih =>
    intro img px py
    rw [List.foldl_cons, ih]
    by_cases hmem : px ∈ xs ∧ py = rows - y
    · rw [if_pos hmem, if_pos ⟨List.mem_cons_of_mem _ hmem.1, hmem.2⟩]
    · rw [if_neg hmem]
      unfold putPixel
      by_cases hx : px = x ∧ py = rows - y
      · rw [if_pos hx, if_pos ⟨hx.1 ▸ List.mem_cons_self _ _, hx.2⟩, hx.1]
      · rw [if_neg hx, if_neg ?_]
        rintro ⟨hm, hp⟩
        rcases List.mem_cons.mp hm with rfl | hm2
        · exact hx ⟨rfl, hp⟩
        · exact hmem ⟨hm2, hp⟩

lemma hillshade_foldl_apply (elevation : ℕ → F) (z_factor : F) (rows cols : ℕ)
    (compute_rgb : F → F → Rgb) :
    ∀ (ys : List ℕ), (∀ y ∈ ys, y < rows) → ∀ (img : ℕ → ℕ → Rgb) (px py : ℕ),
      (ys.foldl (fun img y => (List.range' 1 (cols - 2)).foldl
          (fun im x => putPixel im x (rows - y)
            (compute_rgb (compute_slope_and_aspect elevation z_factor cols x y).2
              (compute_slope_and_aspect elevation z_factor cols x y).1)) img) img) px py =
        if (∃ y ∈ ys, py = rows - y) ∧ px ∈ List.range' 1 (cols - 2) then
          compute_rgb (compute_slope_and_aspect elevation z_factor cols px (rows - py)).2
            (compute_slope_and_aspect elevation z_factor cols px (rows - py)).1
        else img px py := by
  intro ys
  induction ys with
  | nil =>
    intro _ img px py
    simp
  | cons y ys ih =>
    intro hbound img px py
    have hylt : y < rows := hbound y (List.mem_cons_self _ _)
    rw [List.foldl_cons, ih (fun y2 hy2 => hbound y2 (List.mem_cons_of_mem _ hy2))]
    by_cases hys : (∃ y2 ∈ ys, py = rows - y2) ∧ px ∈ List.range' 1 (cols - 2)
    · rw [if_pos hys, if_pos ⟨⟨hys.1.choose, List.mem_cons_of_mem _ hys.1.choose_spec.1,
        hys.1.choose_spec.2⟩, hys.2⟩]
    · rw [if_neg hys, inner_row_apply elevation z_factor rows cols compute_rgb y]
      by_cases hcur : px ∈ List.range' 1 (cols - 2) ∧ py = rows - y
      · rw [if_pos hcur, if_pos ⟨⟨y, List.mem_cons_self _ _, hcur.2⟩, hcur.1⟩]
        have hy : rows - py = y := by omega
        rw [hy]
      · rw [if_neg hcur, if_neg ?_]
        rintro ⟨⟨y2, hy2, hpy⟩, hpx⟩
        rcases List.mem_cons.mp hy2 with rfl | hy2m
        · exact hcur ⟨hpx, hpy⟩
        · exact hys ⟨⟨y2, hy2m, hpy⟩, hpx⟩

/-- C10: `compute_hillshade` writes the pixel at image coordinates
(x, rows − y) for every interior cell (x, y) — so image columns 0 and
cols−1 and image rows 0 and 1 are never written, image row rows−1 comes
from grid row 1 — and every unwritten pixel keeps its initial (0,0,0). -/
theorem compute_hillshade_pixel_layout (elevation : ℕ → F) (z_factor : F)
    (rows cols : ℕ) (compute_rgb : F → F → Rgb) (px py : ℕ) :
    compute_hillshade elevation z_factor rows cols compute_rgb px py =
      if 1 ≤ px ∧ px ≤ cols - 2 ∧ 2 ≤ py ∧ py ≤ rows - 1 then
        compute_rgb (compute_slope_and_aspect elevation z_factor cols px (rows - py)).2
          (compute_slope_and_aspect elevation z_factor cols px (rows - py)).1
      else (0, 0, 0) := by
  unfold compute_hillshade
  rw [hillshade_foldl_apply elevation z_factor rows cols compute_rgb
    (List.range' 1 (rows - 2)) (by
      intro y hy
      rw [List.mem_range'_1] at hy
      omega)]
  have hcond : ((∃ y ∈ List.range' 1 (rows - 2), py = rows - y) ∧
      px ∈ List.range' 1 (cols - 2)) ↔
      (1 ≤ px ∧ px ≤ cols - 2 ∧ 2 ≤ py ∧ py ≤ rows - 1) := by
    simp only [List.mem_range'_1]
    constructor
    · rintro ⟨⟨y, ⟨hy1, hy2⟩, rfl⟩, hpx1, hpx2⟩
      omega
    · rintro ⟨hpx1, hpx2, hpy1, hpy2⟩
      exact ⟨⟨rows - py, ⟨by omega, by omega⟩, by omega⟩, by omega, by omega⟩
  exact if_congr hcond rfl rfl

end Hillshader
